import Mathlib

/-!
Shallow embedding of the JA3 / JA3S fingerprint codec from
`src/rustls/src/yes3.rs`.

Texts are modelled as `List Char`.  The symbolic code enumerations
(`ProtocolVersion`, `CipherSuite`, `ExtensionType`, `NamedGroup`,
`ECPointFormat`) are open wrappers with a total conversion to and from the
underlying `u16` / `u8`, so a record's field is modelled as a `List Nat` of
the underlying codes; the width enters only through the token parser's bound
(`2 ^ 16` for the first four fields, `2 ^ 8` for point formats).

Parsing (`FromStr`) is modelled on `Option`: `none` is the single opaque
`Error` value.  Rendering (`Display`) is modelled twice: `Ja3.fmt` follows
the `Formatter` plumbing of the source (each write returns a `Result`, with
the infallible `String` writer), and `Ja3.render` is the pure output string;
the two are proved to agree.
-/

/-- Rust `char::from_digit` style digit character, as the decimal `Display`
of an unsigned integer emits it (only ever applied to values below ten). -/
def digitChar (d : Nat) : Char :=
  match d with
  | 0 => '0' | 1 => '1' | 2 => '2' | 3 => '3' | 4 => '4'
  | 5 => '5' | 6 => '6' | 7 => '7' | 8 => '8' | 9 => '9'
  | _ => '*'

/-- Numeric value of an ASCII digit character. -/
def digitVal (c : Char) : Nat := c.toNat - 48

/-- Decimal rendering loop of Rust's integer `Display`: peel the least
significant digit into an accumulator.  Fuel-based so that the kernel can
evaluate it; `natToDigitsAux_spec` below removes the fuel. -/
def natToDigitsAux : Nat → Nat → List Char → List Char
  | 0, _, acc => acc
  | fuel + 1, n, acc =>
    if n < 10 then digitChar n :: acc
    else natToDigitsAux fuel (n / 10) (digitChar (n % 10) :: acc)

/-- Base-10 decimal literal of `n`, exactly as Rust's `Display` for `u16` /
`u8` prints it (no sign, no leading zeros, `0` prints as a single digit). -/
def natToDigits (n : Nat) : List Char := natToDigitsAux (n + 1) n []

/-- The digit-consuming loop of Rust's `from_str_radix` for an unsigned
type with exclusive upper bound `bound` (`2 ^ 16` or `2 ^ 8`): each step
multiplies by ten and adds the digit, failing on a non-digit character or
when the value leaves the type's range (`checked_mul` / `checked_add`). -/
def parseDigitsGo (bound acc : Nat) : List Char → Option Nat
  | [] => some acc
  | c :: cs =>
    if c.isDigit then
      if acc * 10 + digitVal c < bound then
        parseDigitsGo bound (acc * 10 + digitVal c) cs
      else none
    else none

/-- Rust `u16::from_str` / `u8::from_str` on a token, with exclusive upper
bound `bound`: an optional leading `+` (a `-` is rejected for unsigned
types), then one or more decimal digits; anything else is an error. -/
def parseUnsigned (bound : Nat) (s : List Char) : Option Nat :=
  match s with
  | [] => none
  | c :: cs =>
    if c = '+' then
      match cs with
      | [] => none
      | _ :: _ => parseDigitsGo bound 0 cs
    else parseDigitsGo bound 0 (c :: cs)

/-- Rust's `Iterator::collect::<Result<Vec<_>, _>>` over `Option`: the first
failing element fails the whole list, order preserved. -/
def collectR {α β : Type} (f : α → Option β) : List α → Option (List β)
  | [] => some []
  | x :: xs => do
      let v ← f x
      let vs ← collectR f xs
      pure (v :: vs)

/-- Rust `str::split(sep)`: every occurrence of the separator splits, the
empty string yields one empty piece, adjacent separators yield empty
pieces. -/
def splitSep (sep : Char) : List Char → List (List Char)
  | [] => [[]]
  | c :: cs =>
    if c = sep then [] :: splitSep sep cs
    else
      match splitSep sep cs with
      | [] => [[c]]
      | p :: ps => (c :: p) :: ps

/-- Rust `str::splitn(n, sep)`: at most `n` pieces; the `n`-th piece keeps
the rest of the string, separators included. -/
def splitn (n : Nat) (sep : Char) (s : List Char) : List (List Char) :=
  match n with
  | 0 => []
  | 1 => [s]
  | m + 2 =>
    match s.dropWhile (fun c => !(c == sep)) with
    | [] => [s]
    | _ :: rest => s.takeWhile (fun c => !(c == sep)) :: splitn (m + 1) sep rest

/-- The `from_str!` macro: an empty field is the empty sequence
(`Default::default()`); otherwise split on `-` and parse every token. -/
def fromStrField (bound : Nat) (s : List Char) : Option (List Nat) :=
  if s.isEmpty then some []
  else collectR (parseUnsigned bound) (splitSep '-' s)

/-- Exclusive bound of `u16`. -/
def u16Bound : Nat := 2 ^ 16

/-- Exclusive bound of `u8`. -/
def u8Bound : Nat := 2 ^ 8

/-- Ja3 client fingerprint record: five ordered sequences of codes
(the underlying integers of `ProtocolVersion`, `CipherSuite`,
`ExtensionType`, `NamedGroup`, `ECPointFormat`). -/
structure Ja3 where
  ssl_versions : List Nat
  ciphers : List Nat
  ssl_extensions : List Nat
  elliptic_curves : List Nat
  elliptic_curve_point_formats : List Nat
deriving DecidableEq

/-- Ja3S server fingerprint record: three ordered sequences of codes. -/
structure Ja3S where
  ssl_versions : List Nat
  ciphers : List Nat
  ssl_extensions : List Nat
deriving DecidableEq

/-- `impl FromStr for Ja3`: split into at most five comma pieces, missing
pieces defaulting to the empty string, and parse the five fields in order
(16-bit for the first four, 8-bit for point formats). -/
def Ja3.fromStr (s : List Char) : Option Ja3 :=
  let parts := splitn 5 ',' s
  do
    let ssl_versions ← fromStrField u16Bound (parts.getD 0 [])
    let ciphers ← fromStrField u16Bound (parts.getD 1 [])
    let ssl_extensions ← fromStrField u16Bound (parts.getD 2 [])
    let elliptic_curves ← fromStrField u16Bound (parts.getD 3 [])
    let elliptic_curve_point_formats ← fromStrField u8Bound (parts.getD 4 [])
    pure ⟨ssl_versions, ciphers, ssl_extensions, elliptic_curves,
          elliptic_curve_point_formats⟩

/-- `impl FromStr for Ja3S`: the source splits into at most five comma
pieces (`splitn(5, ',')`) but reads only the first three. -/
def Ja3S.fromStr (s : List Char) : Option Ja3S :=
  let parts := splitn 5 ',' s
  do
    let ssl_versions ← fromStrField u16Bound (parts.getD 0 [])
    let ciphers ← fromStrField u16Bound (parts.getD 1 [])
    let ssl_extensions ← fromStrField u16Bound (parts.getD 2 [])
    pure ⟨ssl_versions, ciphers, ssl_extensions⟩

/-- One field as `format_vec!` prints it: decimal literals joined by `-`,
no dash for the empty or the singleton sequence. -/
def renderField : List Nat → List Char
  | [] => []
  | [x] => natToDigits x
  | x :: xs => natToDigits x ++ ('-' :: renderField xs)

/-- Pure output of `impl Display for Ja3`: the five rendered fields joined
by commas in fixed field order. -/
def Ja3.render (j : Ja3) : List Char :=
  renderField j.ssl_versions ++ (',' ::
    (renderField j.ciphers ++ (',' ::
      (renderField j.ssl_extensions ++ (',' ::
        (renderField j.elliptic_curves ++ (',' ::
          renderField j.elliptic_curve_point_formats)))))))

/-- Pure output of `impl Display for Ja3S`. -/
def Ja3S.render (j : Ja3S) : List Char :=
  renderField j.ssl_versions ++ (',' ::
    (renderField j.ciphers ++ (',' ::
      renderField j.ssl_extensions)))

/-- `Formatter::write_char` against the `String` writer: appends and never
fails (`fmt::Error` is modelled as `Unit`). -/
def writeChar (buf : List Char) (c : Char) : Except Unit (List Char) :=
  .ok (buf ++ [c])

/-- Writing the decimal `Display` of one code through the formatter. -/
def writeNat (buf : List Char) (n : Nat) : Except Unit (List Char) :=
  .ok (buf ++ natToDigits n)

/-- The `format_vec!` macro: nothing for an empty sequence, the lone
element for a singleton, otherwise every element but the last followed by a
dash, then the last element. -/
def fmtVec (buf : List Char) : List Nat → Except Unit (List Char)
  | [] => .ok buf
  | [x] => writeNat buf x
  | x :: xs => do
      let b1 ← writeNat buf x
      let b2 ← writeChar b1 '-'
      fmtVec b2 xs

/-- `impl Display for Ja3`, with the formatter state threaded explicitly:
each field via `format_vec!`, a comma written between fields, every write
checked with `?`. -/
def Ja3.fmt (j : Ja3) (buf : List Char) : Except Unit (List Char) := do
  let b1 ← fmtVec buf j.ssl_versions
  let b2 ← writeChar b1 ','
  let b3 ← fmtVec b2 j.ciphers
  let b4 ← writeChar b3 ','
  let b5 ← fmtVec b4 j.ssl_extensions
  let b6 ← writeChar b5 ','
  let b7 ← fmtVec b6 j.elliptic_curves
  let b8 ← writeChar b7 ','
  fmtVec b8 j.elliptic_curve_point_formats

/-- `impl Display for Ja3S`, with the formatter state threaded explicitly. -/
def Ja3S.fmt (j : Ja3S) (buf : List Char) : Except Unit (List Char) := do
  let b1 ← fmtVec buf j.ssl_versions
  let b2 ← writeChar b1 ','
  let b3 ← fmtVec b2 j.ciphers
  let b4 ← writeChar b3 ','
  fmtVec b4 j.ssl_extensions

/-- A client record is representable when every code fits its field's
width, as the Rust `Vec<ProtocolVersion>` etc. enforce by typing. -/
def Ja3.wf (j : Ja3) : Prop :=
  (∀ x ∈ j.ssl_versions, x < u16Bound) ∧
  (∀ x ∈ j.ciphers, x < u16Bound) ∧
  (∀ x ∈ j.ssl_extensions, x < u16Bound) ∧
  (∀ x ∈ j.elliptic_curves, x < u16Bound) ∧
  (∀ x ∈ j.elliptic_curve_point_formats, x < u8Bound)

instance (j : Ja3) : Decidable j.wf := by
  unfold Ja3.wf; infer_instance

/-- A server record is representable when every code fits 16 bits. -/
def Ja3S.wf (j : Ja3S) : Prop :=
  (∀ x ∈ j.ssl_versions, x < u16Bound) ∧
  (∀ x ∈ j.ciphers, x < u16Bound) ∧
  (∀ x ∈ j.ssl_extensions, x < u16Bound)

instance (j : Ja3S) : Decidable j.wf := by
  unfold Ja3S.wf; infer_instance

/-- Numeric value of a digit string relative to a high-order accumulator. -/
def digitsValFrom (acc : Nat) : List Char → Nat
  | [] => acc
  | c :: cs => digitsValFrom (acc * 10 + digitVal c) cs

/-- Numeric value of a digit string. -/
def digitsVal (l : List Char) : Nat := digitsValFrom 0 l

/-- The tokens `u16::from_str` / `u8::from_str` accepts: an optional
leading `+`, then a non-empty run of decimal digits whose value is below
`bound`. -/
def isGoodToken (bound : Nat) (t : List Char) : Bool :=
  let d := match t with
    | c :: cs => if c = '+' then cs else t
    | [] => t
  !d.isEmpty && d.all Char.isDigit && decide (digitsVal d < bound)

/-- Character list of a string literal, for readable concrete inputs. -/
def chars (s : String) : List Char := s.data

example : Ja3.fromStr (chars "771,4865-4866,0-23,29,0") =
    some ⟨[771], [4865, 4866], [0, 23], [29], [0]⟩ := by decide

example : Ja3.render ⟨[771], [4865, 4866], [0, 23], [29], [0]⟩ =
    chars "771,4865-4866,0-23,29,0" := by decide

example : Ja3.fromStr (chars "abc,,,,") = none := by decide

example : Ja3S.fromStr (chars "771,4865,0,junk") =
    some ⟨[771], [4865], [0]⟩ := by decide

theorem natToDigitsAux_spec (n : Nat) : ∀ fuel acc, n < fuel →
    natToDigitsAux fuel n acc = natToDigits n ++ acc := by
  induction n using Nat.strong_induction_on with
  | _ n ih =>
    intro fuel acc h
    cases fuel with
    | zero => omega
    | succ f =>
      by_cases h10 : n < 10
      · simp [natToDigitsAux, natToDigits, h10]
      · have hdiv : n / 10 < n := Nat.div_lt_self (by omega) (by omega)
        have h1 : natToDigitsAux (f + 1) n acc
            = natToDigitsAux f (n / 10) (digitChar (n % 10) :: acc) := by
          simp only [natToDigitsAux]
          rw [if_neg h10]
        have h2 : natToDigits n
            = natToDigitsAux n (n / 10) [digitChar (n % 10)] := by
          simp only [natToDigits, natToDigitsAux]
          rw [if_neg h10]
        have e1 := ih (n / 10) hdiv f (digitChar (n % 10) :: acc) (by omega)
        have e2 := ih (n / 10) hdiv n [digitChar (n % 10)] hdiv
        rw [h1, h2, e1, e2]
        simp

theorem natToDigits_lt (n : Nat) (h : n < 10) : natToDigits n = [digitChar n] := by
  simp [natToDigits, natToDigitsAux, h]

theorem natToDigits_ge (n : Nat) (h : 10 ≤ n) :
    natToDigits n = natToDigits (n / 10) ++ [digitChar (n % 10)] := by
  have h2 : natToDigits n = natToDigitsAux n (n / 10) [digitChar (n % 10)] := by
    simp only [natToDigits, natToDigitsAux]
    rw [if_neg (by omega)]
  rw [h2, natToDigitsAux_spec _ _ _ (Nat.div_lt_self (by omega) (by omega))]

theorem digitChar_isDigit {d : Nat} (h : d < 10) : (digitChar d).isDigit = true := by
  interval_cases d <;> decide

theorem digitVal_digitChar {d : Nat} (h : d < 10) : digitVal (digitChar d) = d := by
  interval_cases d <;> decide

theorem isDigit_ne_plus {c : Char} (h : c.isDigit = true) : c ≠ '+' := by
  rintro rfl; exact absurd h (by decide)

theorem isDigit_ne_dash {c : Char} (h : c.isDigit = true) : c ≠ '-' := by
  rintro rfl; exact absurd h (by decide)

theorem isDigit_ne_comma {c : Char} (h : c.isDigit = true) : c ≠ ',' := by
  rintro rfl; exact absurd h (by decide)

theorem natToDigits_ne_nil (n : Nat) : natToDigits n ≠ [] := by
  rcases Nat.lt_or_ge n 10 with h | h
  · rw [natToDigits_lt n h]; simp
  · rw [natToDigits_ge n h]; simp

theorem mem_natToDigits_isDigit (n : Nat) :
    ∀ c ∈ natToDigits n, c.isDigit = true := by
  induction n using Nat.strong_induction_on with
  | _ n ih =>
    rcases Nat.lt_or_ge n 10 with h | h
    · rw [natToDigits_lt n h]
      intro c hc
      simp only [List.mem_singleton] at hc
      subst hc
      exact digitChar_isDigit h
    · rw [natToDigits_ge n h]
      intro c hc
      rcases List.mem_append.mp hc with hc | hc
      · exact ih (n / 10) (Nat.div_lt_self (by omega) (by omega)) c hc
      · simp only [List.mem_singleton] at hc
        subst hc
        exact digitChar_isDigit (Nat.mod_lt _ (by omega))

theorem parseDigitsGo_append (bound : Nat) (s : List Char) : ∀ (t : List Char) (acc : Nat),
    parseDigitsGo bound acc (s ++ t)
      = (parseDigitsGo bound acc s).bind (fun v => parseDigitsGo bound v t) := by
  induction s with
  | nil => intro t acc; simp [parseDigitsGo]
  | cons c cs ih =>
    intro t acc
    simp only [List.cons_append, parseDigitsGo]
    split_ifs <;> simp [ih]

theorem parseDigitsGo_natToDigits (bound : Nat) (n : Nat) :
    ∀ acc, acc * 10 ^ (natToDigits n).length + n < bound →
      parseDigitsGo bound acc (natToDigits n)
        = some (acc * 10 ^ (natToDigits n).length + n) := by
  induction n using Nat.strong_induction_on with
  | _ n ih =>
    intro acc hb
    rcases Nat.lt_or_ge n 10 with h | h
    · rw [natToDigits_lt n h] at hb ⊢
      simp only [List.length_singleton, pow_one] at hb ⊢
      simp only [parseDigitsGo, digitChar_isDigit h, digitVal_digitChar h, if_true]
      rw [if_pos hb]
    · have hdiv : n / 10 < n := Nat.div_lt_self (by omega) (by omega)
      have hmod : n % 10 < 10 := Nat.mod_lt _ (by omega)
      rw [natToDigits_ge n h] at hb ⊢
      simp only [List.length_append, List.length_singleton] at hb ⊢
      have hmul : acc * 10 ^ ((natToDigits (n / 10)).length + 1)
          = acc * 10 ^ (natToDigits (n / 10)).length * 10 := by ring
      rw [hmul] at hb ⊢
      have hb' : acc * 10 ^ (natToDigits (n / 10)).length + n / 10 < bound := by
        generalize acc * 10 ^ (natToDigits (n / 10)).length = q at hb ⊢
        omega
      rw [parseDigitsGo_append, ih (n / 10) hdiv acc hb']
      simp only [Option.some_bind]
      simp only [parseDigitsGo, digitChar_isDigit hmod, digitVal_digitChar hmod, if_true]
      have hfin : (acc * 10 ^ (natToDigits (n / 10)).length + n / 10) * 10 + n % 10 < bound := by
        generalize acc * 10 ^ (natToDigits (n / 10)).length = q at hb ⊢
        omega
      rw [if_pos hfin]
      congr 1
      generalize acc * 10 ^ (natToDigits (n / 10)).length = q at hb ⊢
      omega

theorem parseDigitsGo_natToDigits_zero {bound n : Nat} (h : n < bound) :
    parseDigitsGo bound 0 (natToDigits n) = some n := by
  have h0 : 0 * 10 ^ (natToDigits n).length + n < bound := by simpa
  have := parseDigitsGo_natToDigits bound n 0 h0
  simpa using this

theorem parseUnsigned_natToDigits {bound n : Nat} (h : n < bound) :
    parseUnsigned bound (natToDigits n) = some n := by
  rcases e : natToDigits n with _ | ⟨c, cs⟩
  · exact absurd e (natToDigits_ne_nil n)
  · have hc : c.isDigit = true := mem_natToDigits_isDigit n c (by rw [e]; simp)
    rw [← e]
    conv_lhs => rw [e]
    simp only [parseUnsigned]
    rw [if_neg (isDigit_ne_plus hc), ← e]
    exact parseDigitsGo_natToDigits_zero h

theorem splitSep_nosep {sep : Char} {s : List Char} (h : ∀ c ∈ s, c ≠ sep) :
    splitSep sep s = [s] := by
  induction s with
  | nil => rfl
  | cons c cs ih =>
    have hc : c ≠ sep := h c (by simp)
    have ih' := ih (fun x hx => h x (by simp [hx]))
    simp only [splitSep]
    rw [if_neg hc, ih']

theorem splitSep_append {sep : Char} {a : List Char} (rest : List Char)
    (h : ∀ c ∈ a, c ≠ sep) :
    splitSep sep (a ++ (sep :: rest)) = a :: splitSep sep rest := by
  induction a with
  | nil => simp [splitSep]
  | cons c cs ih =>
    have hc : c ≠ sep := h c (by simp)
    have ih' := ih (fun x hx => h x (by simp [hx]))
    simp only [List.cons_append, splitSep, List.append_eq]
    rw [if_neg hc, ih']

theorem takeWhile_nosep {sep : Char} {s : List Char} (h : ∀ c ∈ s, c ≠ sep) :
    s.takeWhile (fun c => !(c == sep)) = s := by
  induction s with
  | nil => rfl
  | cons c cs ih =>
    have hb : (c == sep) = false := by simp [h c (by simp)]
    have ih' := ih (fun x hx => h x (by simp [hx]))
    simp [List.takeWhile, hb, ih']

theorem dropWhile_nosep {sep : Char} {s : List Char} (h : ∀ c ∈ s, c ≠ sep) :
    s.dropWhile (fun c => !(c == sep)) = [] := by
  induction s with
  | nil => rfl
  | cons c cs ih =>
    have hb : (c == sep) = false := by simp [h c (by simp)]
    have ih' := ih (fun x hx => h x (by simp [hx]))
    simp [List.dropWhile, hb, ih']

theorem takeWhile_append_sep {sep : Char} {a : List Char} (rest : List Char)
    (h : ∀ c ∈ a, c ≠ sep) :
    (a ++ (sep :: rest)).takeWhile (fun c => !(c == sep)) = a := by
  induction a with
  | nil => simp [List.takeWhile]
  | cons c cs ih =>
    have hb : (c == sep) = false := by simp [h c (by simp)]
    have ih' := ih (fun x hx => h x (by simp [hx]))
    simp only [List.cons_append, List.takeWhile]
    simp [hb, ih']

theorem dropWhile_append_sep {sep : Char} {a : List Char} (rest : List Char)
    (h : ∀ c ∈ a, c ≠ sep) :
    (a ++ (sep :: rest)).dropWhile (fun c => !(c == sep)) = sep :: rest := by
  induction a with
  | nil => simp [List.dropWhile]
  | cons c cs ih =>
    have hb : (c == sep) = false := by simp [h c (by simp)]
    have ih' := ih (fun x hx => h x (by simp [hx]))
    simp only [List.cons_append, List.dropWhile]
    simp [hb, ih']

theorem splitn_nosep {sep : Char} {s : List Char} (n : Nat) (h : ∀ c ∈ s, c ≠ sep) :
    splitn (n + 1) sep s = [s] := by
  cases n with
  | zero => rfl
  | succ m =>
    simp only [splitn]
    rw [dropWhile_nosep h]

theorem splitn_step {sep : Char} {a : List Char} (n : Nat) (rest : List Char)
    (h : ∀ c ∈ a, c ≠ sep) :
    splitn (n + 2) sep (a ++ (sep :: rest)) = a :: splitn (n + 1) sep rest := by
  simp only [splitn]
  rw [dropWhile_append_sep rest h, takeWhile_append_sep rest h]

theorem mem_renderField {xs : List Nat} :
    ∀ c ∈ renderField xs, c = '-' ∨ c.isDigit = true := by
  induction xs with
  | nil => simp [renderField]
  | cons x xs ih =>
    cases xs with
    | nil =>
      intro c hc
      simp only [renderField] at hc
      exact Or.inr (mem_natToDigits_isDigit x c hc)
    | cons y ys =>
      intro c hc
      simp only [renderField, List.mem_append, List.mem_cons] at hc
      rcases hc with hc | hc | hc
      · exact Or.inr (mem_natToDigits_isDigit x c hc)
      · exact Or.inl hc
      · exact ih c hc

theorem renderField_no_comma {xs : List Nat} : ∀ c ∈ renderField xs, c ≠ ',' := by
  intro c hc
  rcases mem_renderField c hc with h | h
  · subst h; decide
  · exact isDigit_ne_comma h

theorem renderField_ne_nil {xs : List Nat} (h : xs ≠ []) : renderField xs ≠ [] := by
  cases xs with
  | nil => exact absurd rfl h
  | cons x xs =>
    cases xs with
    | nil => exact natToDigits_ne_nil x
    | cons y ys => simp [renderField, natToDigits_ne_nil x]

theorem splitSep_renderField {xs : List Nat} (h : xs ≠ []) :
    splitSep '-' (renderField xs) = xs.map natToDigits := by
  induction xs with
  | nil => exact absurd rfl h
  | cons x xs ih =>
    cases xs with
    | nil =>
      simp only [renderField, List.map]
      exact splitSep_nosep
        (fun c hc => isDigit_ne_dash (mem_natToDigits_isDigit x c hc))
    | cons y ys =>
      simp only [renderField, List.map]
      rw [splitSep_append _
        (fun c hc => isDigit_ne_dash (mem_natToDigits_isDigit x c hc))]
      rw [ih (by simp)]
      rfl

theorem collectR_map_some {α β : Type} {f : β → Option α} {g : α → β}
    {xs : List α} (h : ∀ x ∈ xs, f (g x) = some x) :
    collectR f (xs.map g) = some xs := by
  induction xs with
  | nil => rfl
  | cons x xs ih =>
    simp only [List.map, collectR, h x (by simp), Option.some_bind,
      ih (fun y hy => h y (by simp [hy]))]
    rfl

theorem fromStrField_renderField {bound : Nat} {xs : List Nat}
    (h : ∀ x ∈ xs, x < bound) :
    fromStrField bound (renderField xs) = some xs := by
  cases xs with
  | nil => rfl
  | cons x ys =>
    have hne : renderField (x :: ys) ≠ [] := renderField_ne_nil (by simp)
    simp only [fromStrField]
    rw [if_neg (by simpa [List.isEmpty_iff] using hne)]
    rw [splitSep_renderField (by simp)]
    exact collectR_map_some
      (fun y hy => parseUnsigned_natToDigits (h y hy))

theorem splitn5_parts (p1 p2 p3 p4 r : List Char)
    (h1 : ∀ c ∈ p1, c ≠ ',') (h2 : ∀ c ∈ p2, c ≠ ',')
    (h3 : ∀ c ∈ p3, c ≠ ',') (h4 : ∀ c ∈ p4, c ≠ ',') :
    splitn 5 ','
      (p1 ++ (',' :: (p2 ++ (',' :: (p3 ++ (',' :: (p4 ++ (',' :: r))))))))
      = [p1, p2, p3, p4, r] := by
  have e1 : splitn 5 ',' (p1 ++ (',' ::
        (p2 ++ (',' :: (p3 ++ (',' :: (p4 ++ (',' :: r))))))))
      = p1 :: splitn 4 ',' (p2 ++ (',' :: (p3 ++ (',' :: (p4 ++ (',' :: r)))))) :=
    splitn_step 3 _ h1
  have e2 : splitn 4 ',' (p2 ++ (',' :: (p3 ++ (',' :: (p4 ++ (',' :: r))))))
      = p2 :: splitn 3 ',' (p3 ++ (',' :: (p4 ++ (',' :: r)))) :=
    splitn_step 2 _ h2
  have e3 : splitn 3 ',' (p3 ++ (',' :: (p4 ++ (',' :: r))))
      = p3 :: splitn 2 ',' (p4 ++ (',' :: r)) :=
    splitn_step 1 _ h3
  have e4 : splitn 2 ',' (p4 ++ (',' :: r)) = p4 :: splitn 1 ',' r :=
    splitn_step 0 _ h4
  rw [e1, e2, e3, e4]
  rfl

theorem splitn5_parts3 (p1 p2 p3 r : List Char)
    (h1 : ∀ c ∈ p1, c ≠ ',') (h2 : ∀ c ∈ p2, c ≠ ',')
    (h3 : ∀ c ∈ p3, c ≠ ',') :
    splitn 5 ',' (p1 ++ (',' :: (p2 ++ (',' :: (p3 ++ (',' :: r))))))
      = p1 :: p2 :: p3 :: splitn 2 ',' r := by
  have e1 : splitn 5 ',' (p1 ++ (',' :: (p2 ++ (',' :: (p3 ++ (',' :: r))))))
      = p1 :: splitn 4 ',' (p2 ++ (',' :: (p3 ++ (',' :: r)))) :=
    splitn_step 3 _ h1
  have e2 : splitn 4 ',' (p2 ++ (',' :: (p3 ++ (',' :: r))))
      = p2 :: splitn 3 ',' (p3 ++ (',' :: r)) :=
    splitn_step 2 _ h2
  have e3 : splitn 3 ',' (p3 ++ (',' :: r)) = p3 :: splitn 2 ',' r :=
    splitn_step 1 _ h3
  rw [e1, e2, e3]

theorem ja3_fromStr_parts (p1 p2 p3 p4 r : List Char)
    (h1 : ∀ c ∈ p1, c ≠ ',') (h2 : ∀ c ∈ p2, c ≠ ',')
    (h3 : ∀ c ∈ p3, c ≠ ',') (h4 : ∀ c ∈ p4, c ≠ ',') :
    Ja3.fromStr
      (p1 ++ (',' :: (p2 ++ (',' :: (p3 ++ (',' :: (p4 ++ (',' :: r))))))))
      = (do
          let a ← fromStrField u16Bound p1
          let b ← fromStrField u16Bound p2
          let c ← fromStrField u16Bound p3
          let d ← fromStrField u16Bound p4
          let e ← fromStrField u8Bound r
          pure ⟨a, b, c, d, e⟩) := by
  simp only [Ja3.fromStr, splitn5_parts p1 p2 p3 p4 r h1 h2 h3 h4]
  rfl

theorem ja3s_fromStr_parts (p1 p2 p3 r : List Char)
    (h1 : ∀ c ∈ p1, c ≠ ',') (h2 : ∀ c ∈ p2, c ≠ ',')
    (h3 : ∀ c ∈ p3, c ≠ ',') :
    Ja3S.fromStr (p1 ++ (',' :: (p2 ++ (',' :: (p3 ++ (',' :: r))))))
      = (do
          let a ← fromStrField u16Bound p1
          let b ← fromStrField u16Bound p2
          let c ← fromStrField u16Bound p3
          pure ⟨a, b, c⟩) := by
  simp only [Ja3S.fromStr, splitn5_parts3 p1 p2 p3 r h1 h2 h3]
  rfl

theorem ja3s_fromStr_parts3 (p1 p2 p3 : List Char)
    (h1 : ∀ c ∈ p1, c ≠ ',') (h2 : ∀ c ∈ p2, c ≠ ',')
    (h3 : ∀ c ∈ p3, c ≠ ',') :
    Ja3S.fromStr (p1 ++ (',' :: (p2 ++ (',' :: p3))))
      = (do
          let a ← fromStrField u16Bound p1
          let b ← fromStrField u16Bound p2
          let c ← fromStrField u16Bound p3
          pure ⟨a, b, c⟩) := by
  have e1 : splitn 5 ',' (p1 ++ (',' :: (p2 ++ (',' :: p3))))
      = p1 :: splitn 4 ',' (p2 ++ (',' :: p3)) :=
    splitn_step 3 _ h1
  have e2 : splitn 4 ',' (p2 ++ (',' :: p3)) = p2 :: splitn 3 ',' p3 :=
    splitn_step 2 _ h2
  have e3 : splitn 3 ',' p3 = [p3] := splitn_nosep 2 h3
  simp only [Ja3S.fromStr, e1, e2, e3]
  rfl

theorem ja3s_ignores_tail (p1 p2 p3 r : List Char)
    (h1 : ∀ c ∈ p1, c ≠ ',') (h2 : ∀ c ∈ p2, c ≠ ',')
    (h3 : ∀ c ∈ p3, c ≠ ',') :
    Ja3S.fromStr (p1 ++ (',' :: (p2 ++ (',' :: (p3 ++ (',' :: r))))))
      = Ja3S.fromStr (p1 ++ (',' :: (p2 ++ (',' :: p3)))) := by
  rw [ja3s_fromStr_parts p1 p2 p3 r h1 h2 h3,
    ja3s_fromStr_parts3 p1 p2 p3 h1 h2 h3]

theorem ja3_parse_render {j : Ja3} (h : j.wf) :
    Ja3.fromStr (Ja3.render j) = some j := by
  obtain ⟨h1, h2, h3, h4, h5⟩ := h
  have hr : Ja3.render j
      = renderField j.ssl_versions ++ (',' ::
          (renderField j.ciphers ++ (',' ::
            (renderField j.ssl_extensions ++ (',' ::
              (renderField j.elliptic_curves ++ (',' ::
                renderField j.elliptic_curve_point_formats))))))) := rfl
  rw [hr, ja3_fromStr_parts _ _ _ _ _ renderField_no_comma renderField_no_comma
    renderField_no_comma renderField_no_comma]
  rw [fromStrField_renderField h1, fromStrField_renderField h2,
    fromStrField_renderField h3, fromStrField_renderField h4,
    fromStrField_renderField h5]
  rfl

theorem ja3s_parse_render {j : Ja3S} (h : j.wf) :
    Ja3S.fromStr (Ja3S.render j) = some j := by
  obtain ⟨h1, h2, h3⟩ := h
  have hr : Ja3S.render j
      = renderField j.ssl_versions ++ (',' ::
          (renderField j.ciphers ++ (',' ::
            renderField j.ssl_extensions))) := rfl
  rw [hr, ja3s_fromStr_parts3 _ _ _ renderField_no_comma renderField_no_comma
    renderField_no_comma]
  rw [fromStrField_renderField h1, fromStrField_renderField h2,
    fromStrField_renderField h3]
  rfl

theorem fmtVec_eq (xs : List Nat) : ∀ buf : List Char,
    fmtVec buf xs = .ok (buf ++ renderField xs) := by
  induction xs with
  | nil => intro buf; simp [fmtVec, renderField]
  | cons x ys ih =>
    intro buf
    cases ys with
    | nil => simp [fmtVec, renderField, writeNat]
    | cons y yys =>
      simp only [fmtVec, renderField, writeNat, writeChar, Except.bind, ih,
        bind, pure]
      simp [List.append_assoc]

theorem ja3_fmt_eq (j : Ja3) (buf : List Char) :
    Ja3.fmt j buf = .ok (buf ++ Ja3.render j) := by
  simp only [Ja3.fmt, Ja3.render, fmtVec_eq, writeChar, bind, Except.bind]
  simp [List.append_assoc]

theorem ja3s_fmt_eq (j : Ja3S) (buf : List Char) :
    Ja3S.fmt j buf = .ok (buf ++ Ja3S.render j) := by
  simp only [Ja3S.fmt, Ja3S.render, fmtVec_eq, writeChar, bind, Except.bind]
  simp [List.append_assoc]

theorem le_digitsValFrom (l : List Char) : ∀ acc, acc ≤ digitsValFrom acc l := by
  induction l with
  | nil =>
    intro acc
    have h0 : digitsValFrom acc [] = acc := rfl
    rw [h0]
  | cons c cs ih =>
    intro acc
    have h2 : digitsValFrom acc (c :: cs)
        = digitsValFrom (acc * 10 + digitVal c) cs := rfl
    rw [h2]
    exact le_trans (by omega) (ih (acc * 10 + digitVal c))

theorem parseDigitsGo_eq (bound : Nat) (l : List Char) : ∀ acc, acc < bound →
    parseDigitsGo bound acc l
      = if (l.all Char.isDigit = true ∧ digitsValFrom acc l < bound)
        then some (digitsValFrom acc l) else none := by
  induction l with
  | nil =>
    intro acc hacc
    have e0 : digitsValFrom acc [] = acc := rfl
    rw [e0]
    simp [parseDigitsGo, hacc]
  | cons c cs ih =>
    intro acc hacc
    have ec : digitsValFrom acc (c :: cs)
        = digitsValFrom (acc * 10 + digitVal c) cs := rfl
    by_cases hd : c.isDigit = true
    · by_cases hv : acc * 10 + digitVal c < bound
      · have hrec := ih (acc * 10 + digitVal c) hv
        simp only [parseDigitsGo, hd, if_true, if_pos hv, hrec]
        rw [ec]
        simp [List.all_cons, hd]
      · have hmono := le_digitsValFrom cs (acc * 10 + digitVal c)
        simp only [parseDigitsGo, hd, if_true, if_neg hv]
        rw [if_neg]
        rintro ⟨-, hlt⟩
        rw [ec] at hlt
        omega
    · have hd' : c.isDigit = false := by
        cases hcd : c.isDigit
        · rfl
        · exact absurd hcd hd
      simp only [parseDigitsGo, hd', Bool.false_eq_true, if_false]
      rw [if_neg]
      rintro ⟨hall, -⟩
      simp [List.all_cons, hd'] at hall

theorem goodToken_iff_plus {bound : Nat} (x : Char) (xs : List Char) :
    isGoodToken bound ('+' :: (x :: xs)) = true
      ↔ ((x :: xs).all Char.isDigit = true ∧ digitsVal (x :: xs) < bound) := by
  simp [isGoodToken]

theorem goodToken_iff_noplus {bound : Nat} {c : Char} (cs : List Char)
    (hc : c ≠ '+') :
    isGoodToken bound (c :: cs) = true
      ↔ ((c :: cs).all Char.isDigit = true ∧ digitsVal (c :: cs) < bound) := by
  simp [isGoodToken, hc]

theorem parseUnsigned_none_iff {bound : Nat} (hb : 0 < bound) (t : List Char) :
    parseUnsigned bound t = none ↔ isGoodToken bound t = false := by
  cases t with
  | nil => simp [parseUnsigned, isGoodToken]
  | cons c cs =>
    by_cases hc : c = '+'
    · subst hc
      cases cs with
      | nil => simp [parseUnsigned, isGoodToken]
      | cons x xs =>
        rw [Bool.eq_false_iff, Ne, goodToken_iff_plus]
        have e : parseUnsigned bound ('+' :: (x :: xs))
            = parseDigitsGo bound 0 (x :: xs) := rfl
        rw [e, parseDigitsGo_eq bound (x :: xs) 0 hb]
        by_cases hcond : ((x :: xs).all Char.isDigit = true
            ∧ digitsValFrom 0 (x :: xs) < bound)
        · rw [if_pos hcond]
          exact iff_of_false (fun he => Option.noConfusion he)
            (fun hn => hn ⟨hcond.1, hcond.2⟩)
        · rw [if_neg hcond]
          exact iff_of_true rfl (fun hcc => hcond ⟨hcc.1, hcc.2⟩)
    · rw [Bool.eq_false_iff, Ne, goodToken_iff_noplus cs hc]
      have e : parseUnsigned bound (c :: cs) = if c = '+' then
          (match cs with
            | [] => none
            | _ :: _ => parseDigitsGo bound 0 cs)
          else parseDigitsGo bound 0 (c :: cs) := rfl
      rw [e, if_neg hc, parseDigitsGo_eq bound (c :: cs) 0 hb]
      by_cases hcond : ((c :: cs).all Char.isDigit = true
          ∧ digitsValFrom 0 (c :: cs) < bound)
      · rw [if_pos hcond]
        exact iff_of_false (fun he => Option.noConfusion he)
          (fun hn => hn ⟨hcond.1, hcond.2⟩)
      · rw [if_neg hcond]
        exact iff_of_true rfl (fun hcc => hcond ⟨hcc.1, hcc.2⟩)

theorem collectR_eq_none_iff {α β : Type} (f : α → Option β) (xs : List α) :
    collectR f xs = none ↔ ∃ x ∈ xs, f x = none := by
  induction xs with
  | nil => simp [collectR]
  | cons x xs ih =>
    cases hf : f x with
    | none => simp [collectR, hf]
    | some v =>
      cases hrest : collectR f xs with
      | none =>
        obtain ⟨y, hy, hfy⟩ := ih.mp hrest
        simp only [collectR, hf, hrest, Option.some_bind, Option.none_bind]
        exact iff_of_true rfl ⟨y, List.mem_cons_of_mem x hy, hfy⟩
      | some vs =>
        simp only [collectR, hf, hrest, Option.some_bind]
        constructor
        · intro h; exact Option.noConfusion h
        · rintro ⟨y, hy, hfy⟩
          rcases List.mem_cons.mp hy with rfl | hy
          · rw [hf] at hfy; exact Option.noConfusion hfy
          · have hn : collectR f xs = none := ih.mpr ⟨y, hy, hfy⟩
            rw [hrest] at hn; exact Option.noConfusion hn

theorem fromStrField_none_iff (bound : Nat) (p : List Char) :
    fromStrField bound p = none
      ↔ (p ≠ [] ∧ ∃ t ∈ splitSep '-' p, parseUnsigned bound t = none) := by
  cases p with
  | nil => simp [fromStrField]
  | cons c cs =>
    have he : ((c :: cs).isEmpty) = false := rfl
    simp only [fromStrField, he, Bool.false_eq_true, if_false]
    rw [collectR_eq_none_iff]
    simp

theorem ja3_fromStr_none_iff (s : List Char) :
    Ja3.fromStr s = none
      ↔ (fromStrField u16Bound ((splitn 5 ',' s).getD 0 []) = none
        ∨ fromStrField u16Bound ((splitn 5 ',' s).getD 1 []) = none
        ∨ fromStrField u16Bound ((splitn 5 ',' s).getD 2 []) = none
        ∨ fromStrField u16Bound ((splitn 5 ',' s).getD 3 []) = none
        ∨ fromStrField u8Bound ((splitn 5 ',' s).getD 4 []) = none) := by
  simp only [Ja3.fromStr]
  cases h0 : fromStrField u16Bound ((splitn 5 ',' s).getD 0 []) <;>
    cases h1 : fromStrField u16Bound ((splitn 5 ',' s).getD 1 []) <;>
      cases h2 : fromStrField u16Bound ((splitn 5 ',' s).getD 2 []) <;>
        cases h3 : fromStrField u16Bound ((splitn 5 ',' s).getD 3 []) <;>
          cases h4 : fromStrField u8Bound ((splitn 5 ',' s).getD 4 []) <;>
            simp

theorem ja3s_fromStr_none_iff (s : List Char) :
    Ja3S.fromStr s = none
      ↔ (fromStrField u16Bound ((splitn 5 ',' s).getD 0 []) = none
        ∨ fromStrField u16Bound ((splitn 5 ',' s).getD 1 []) = none
        ∨ fromStrField u16Bound ((splitn 5 ',' s).getD 2 []) = none) := by
  simp only [Ja3S.fromStr]
  cases h0 : fromStrField u16Bound ((splitn 5 ',' s).getD 0 []) <;>
    cases h1 : fromStrField u16Bound ((splitn 5 ',' s).getD 1 []) <;>
      cases h2 : fromStrField u16Bound ((splitn 5 ',' s).getD 2 []) <;>
        simp

theorem digitsVal_natToDigits (n : Nat) : digitsVal (natToDigits n) = n := by
  have h1 : parseDigitsGo (n + 1) 0 (natToDigits n) = some n :=
    parseDigitsGo_natToDigits_zero (by omega)
  rw [parseDigitsGo_eq (n + 1) (natToDigits n) 0 (by omega)] at h1
  by_cases h : ((natToDigits n).all Char.isDigit = true
      ∧ digitsValFrom 0 (natToDigits n) < n + 1)
  · rw [if_pos h] at h1
    simpa [digitsVal] using h1
  · rw [if_neg h] at h1; exact Option.noConfusion h1

theorem renderField_eq_intercalate (xs : List Nat) :
    renderField xs = List.intercalate ['-'] (xs.map natToDigits) := by
  induction xs with
  | nil => simp [renderField, List.intercalate]
  | cons x ys ih =>
    cases ys with
    | nil => simp [renderField, List.intercalate, List.intersperse]
    | cons y yys =>
      have e : renderField (x :: y :: yys)
          = natToDigits x ++ ('-' :: renderField (y :: yys)) := rfl
      rw [e, ih]
      simp only [List.map, List.intercalate, List.intersperse]
      simp [List.flatten]

theorem renderField_head (xs : List Nat) (h : xs ≠ []) :
    ∃ c cs, renderField xs = c :: cs ∧ c.isDigit = true := by
  cases xs with
  | nil => exact absurd rfl h
  | cons x ys =>
    rcases e : natToDigits x with _ | ⟨c, cs⟩
    · exact absurd e (natToDigits_ne_nil x)
    · have hc : c.isDigit = true := mem_natToDigits_isDigit x c (by rw [e]; simp)
      cases ys with
      | nil => exact ⟨c, cs, by simp [renderField, e], hc⟩
      | cons y yys =>
        refine ⟨c, cs ++ ('-' :: renderField (y :: yys)), ?_, hc⟩
        have e2 : renderField (x :: y :: yys)
            = natToDigits x ++ ('-' :: renderField (y :: yys)) := rfl
        rw [e2, e]
        rfl

theorem natToDigits_last (n : Nat) :
    ∃ a c, natToDigits n = a ++ [c] ∧ c.isDigit = true := by
  rcases Nat.lt_or_ge n 10 with h | h
  · exact ⟨[], digitChar n, by rw [natToDigits_lt n h]; rfl, digitChar_isDigit h⟩
  · exact ⟨natToDigits (n / 10), digitChar (n % 10), natToDigits_ge n h,
      digitChar_isDigit (Nat.mod_lt _ (by omega))⟩

theorem renderField_last (xs : List Nat) (h : xs ≠ []) :
    ∃ a c, renderField xs = a ++ [c] ∧ c.isDigit = true := by
  induction xs with
  | nil => exact absurd rfl h
  | cons x ys ih =>
    cases ys with
    | nil =>
      obtain ⟨a, c, e, hc⟩ := natToDigits_last x
      exact ⟨a, c, by rw [show renderField [x] = natToDigits x from rfl, e], hc⟩
    | cons y yys =>
      obtain ⟨a, c, e, hc⟩ := ih (by simp)
      refine ⟨natToDigits x ++ ('-' :: a), c, ?_, hc⟩
      have e2 : renderField (x :: y :: yys)
          = natToDigits x ++ ('-' :: renderField (y :: yys)) := rfl
      rw [e2, e]
      simp

theorem natToDigits_all_isDigit (n : Nat) :
    (natToDigits n).all Char.isDigit = true := by
  rw [List.all_eq_true]
  intro c hc
  exact mem_natToDigits_isDigit n c hc

/-- Claim C1: record round trip — for every client record (five sequences
of 16-bit codes for versions, ciphers, extensions, curves and 8-bit codes
for point formats) and every server record (three sequences of 16-bit
codes), parsing the rendered text succeeds and yields a record equal to
the original, field by field, with sequence order preserved. -/
theorem claim_record_roundtrip :
    (∀ j : Ja3, j.wf → Ja3.fromStr (Ja3.render j) = some j) ∧
    (∀ j : Ja3S, j.wf → Ja3S.fromStr (Ja3S.render j) = some j) :=
  ⟨fun _ h => ja3_parse_render h, fun _ h => ja3s_parse_render h⟩

/-- Witness for claim C1 at concrete records, the server one being the
spec's example fingerprint 771,4865-4866,0-23. -/
theorem claim_record_roundtrip_witness :
    Ja3.fromStr (Ja3.render ⟨[771], [4865, 4866], [0, 23, 65281], [29, 23], [0]⟩)
      = some ⟨[771], [4865, 4866], [0, 23, 65281], [29, 23], [0]⟩ ∧
    Ja3S.fromStr (Ja3S.render ⟨[771], [4865, 4866], [0, 23]⟩)
      = some ⟨[771], [4865, 4866], [0, 23]⟩ :=
  ⟨claim_record_roundtrip.1 _ (by decide), claim_record_roundtrip.2 _ (by decide)⟩

/-- Claim C2: text round trip — for every text that is the output of
render on some (representable) record, parse succeeds and re-rendering the
parsed record reproduces the text character for character. -/
theorem claim_text_roundtrip :
    (∀ j : Ja3, j.wf →
      (Ja3.fromStr (Ja3.render j)).map Ja3.render = some (Ja3.render j)) ∧
    (∀ j : Ja3S, j.wf →
      (Ja3S.fromStr (Ja3S.render j)).map Ja3S.render = some (Ja3S.render j)) := by
  constructor
  · intro j h; rw [ja3_parse_render h]; rfl
  · intro j h; rw [ja3s_parse_render h]; rfl

/-- Witness for claim C2 at concrete records. -/
theorem claim_text_roundtrip_witness :
    (Ja3.fromStr (Ja3.render ⟨[771, 770], [4865], [], [29], [0, 1]⟩)).map Ja3.render
      = some (Ja3.render ⟨[771, 770], [4865], [], [29], [0, 1]⟩) ∧
    (Ja3S.fromStr (Ja3S.render ⟨[771], [4865], [0]⟩)).map Ja3S.render
      = some (Ja3S.render ⟨[771], [4865], [0]⟩) :=
  ⟨claim_text_roundtrip.1 _ (by decide), claim_text_roundtrip.2 _ (by decide)⟩

/-- Claim C3 counterexample: on the server form a fourth comma-separated
segment is NOT kept inside the third field's raw text — the code parses
"771,4865,0,junk" successfully with third field [0], whereas a third field
whose raw text were "0,junk" would fail to parse (second conjunct). -/
theorem claim_extra_segment_cex :
    Ja3S.fromStr (chars "771,4865,0,junk") = some ⟨[771], [4865], [0]⟩ ∧
    fromStrField u16Bound (chars "0,junk") = none := by decide

/-- Claim C3 amended: the client form splits on commas into at most five
pieces, so commas beyond the fourth are not further split and stay
embedded in the fifth field's raw text, which is consumed as the
point-format field; the server form also splits into at most five pieces
but consumes only the first three, so a fourth comma-separated segment is
silently discarded rather than kept in the third field's raw text. -/
theorem claim_extra_segment :
    (∀ p1 p2 p3 p4 r : List Char,
      (∀ c ∈ p1, c ≠ ',') → (∀ c ∈ p2, c ≠ ',') →
      (∀ c ∈ p3, c ≠ ',') → (∀ c ∈ p4, c ≠ ',') →
      Ja3.fromStr
        (p1 ++ (',' :: (p2 ++ (',' :: (p3 ++ (',' :: (p4 ++ (',' :: r))))))))
        = (do
            let a ← fromStrField u16Bound p1
            let b ← fromStrField u16Bound p2
            let c ← fromStrField u16Bound p3
            let d ← fromStrField u16Bound p4
            let e ← fromStrField u8Bound r
            pure ⟨a, b, c, d, e⟩)) ∧
    (∀ p1 p2 p3 r : List Char,
      (∀ c ∈ p1, c ≠ ',') → (∀ c ∈ p2, c ≠ ',') → (∀ c ∈ p3, c ≠ ',') →
      Ja3S.fromStr (p1 ++ (',' :: (p2 ++ (',' :: (p3 ++ (',' :: r))))))
        = Ja3S.fromStr (p1 ++ (',' :: (p2 ++ (',' :: p3))))) :=
  ⟨ja3_fromStr_parts, ja3s_ignores_tail⟩

/-- Witness for claim C3 at concrete pieces: the client text has an extra
comma inside the fifth raw field; the server text has two extra segments. -/
theorem claim_extra_segment_witness :
    Ja3.fromStr (chars "771" ++ (',' :: (chars "4865" ++ (',' ::
        (chars "0" ++ (',' :: (chars "29" ++ (',' :: chars "0,1"))))))))
      = (do
          let a ← fromStrField u16Bound (chars "771")
          let b ← fromStrField u16Bound (chars "4865")
          let c ← fromStrField u16Bound (chars "0")
          let d ← fromStrField u16Bound (chars "29")
          let e ← fromStrField u8Bound (chars "0,1")
          pure ⟨a, b, c, d, e⟩) ∧
    Ja3S.fromStr (chars "771" ++ (',' :: (chars "4865" ++ (',' ::
        (chars "0" ++ (',' :: chars "junk,junk2"))))))
      = Ja3S.fromStr (chars "771" ++ (',' :: (chars "4865" ++ (',' :: chars "0")))) :=
  ⟨claim_extra_segment.1 _ _ _ _ _ (by decide) (by decide) (by decide) (by decide),
   claim_extra_segment.2 _ _ _ _ (by decide) (by decide) (by decide)⟩

/-- Claim C5: empty and missing fields — parsing ",,,," yields the all-empty
client record and rendering it gives ",,,," back; parsing "771" yields
versions [771] with the other four sequences empty, and equals the parse
of "771,,,,". -/
theorem claim_empty_fields :
    Ja3.fromStr (chars ",,,,") = some ⟨[], [], [], [], []⟩ ∧
    Ja3.render ⟨[], [], [], [], []⟩ = chars ",,,," ∧
    Ja3.fromStr (chars "771") = some ⟨[771], [], [], [], []⟩ ∧
    Ja3.fromStr (chars "771") = Ja3.fromStr (chars "771,,,,") := by decide

/-- Claim C6: per-width range boundaries — a point-format token "256"
(8-bit field) fails while "255" succeeds; in each of the four 16-bit field
slots "65535" is accepted and "65536" fails; "65535" in the 8-bit slot
fails.  Acceptance of a numeric token is decided exactly by the width of
its field slot. -/
theorem claim_width_boundaries :
    Ja3.fromStr (chars ",,,,255") = some ⟨[], [], [], [], [255]⟩ ∧
    Ja3.fromStr (chars ",,,,256") = none ∧
    Ja3.fromStr (chars "65535,,,,") = some ⟨[65535], [], [], [], []⟩ ∧
    Ja3.fromStr (chars "65536,,,,") = none ∧
    Ja3.fromStr (chars ",65535,,,") = some ⟨[], [65535], [], [], []⟩ ∧
    Ja3.fromStr (chars ",65536,,,") = none ∧
    Ja3.fromStr (chars ",,65535,,") = some ⟨[], [], [65535], [], []⟩ ∧
    Ja3.fromStr (chars ",,65536,,") = none ∧
    Ja3.fromStr (chars ",,,65535,") = some ⟨[], [], [], [65535], []⟩ ∧
    Ja3.fromStr (chars ",,,65536,") = none ∧
    Ja3.fromStr (chars ",,,,65535") = none := by decide

/-- Claim C8: rendering is total — for every client or server record and
every already-written buffer, the formatter run returns ok (never the
error outcome), and its result is the buffer followed by the pure rendered
string, regardless of the codes stored in the record. -/
theorem claim_render_total :
    (∀ (j : Ja3) (buf : List Char), Ja3.fmt j buf = Except.ok (buf ++ Ja3.render j)) ∧
    (∀ (j : Ja3S) (buf : List Char), Ja3S.fmt j buf = Except.ok (buf ++ Ja3S.render j)) :=
  ⟨ja3_fmt_eq, ja3s_fmt_eq⟩

/-- Claim C9 (implicit): on the server form any comma-separated segments
after the third are silently ignored — whenever the first three segments
parse, the parse succeeds with the record determined by them alone, and in
particular parse("771,4865,0,junk") = parse("771,4865,0") = the record
[[771],[4865],[0]]. -/
theorem claim_server_ignores_extra :
    (∀ p1 p2 p3 r : List Char,
      (∀ c ∈ p1, c ≠ ',') → (∀ c ∈ p2, c ≠ ',') → (∀ c ∈ p3, c ≠ ',') →
      ∀ a b c : List Nat,
        fromStrField u16Bound p1 = some a →
        fromStrField u16Bound p2 = some b →
        fromStrField u16Bound p3 = some c →
        Ja3S.fromStr (p1 ++ (',' :: (p2 ++ (',' :: (p3 ++ (',' :: r))))))
          = some ⟨a, b, c⟩) ∧
    Ja3S.fromStr (chars "771,4865,0,junk") = Ja3S.fromStr (chars "771,4865,0") ∧
    Ja3S.fromStr (chars "771,4865,0") = some ⟨[771], [4865], [0]⟩ := by
  refine ⟨?_, by decide, by decide⟩
  intro p1 p2 p3 r h1 h2 h3 a b c ha hb hc
  rw [ja3s_fromStr_parts p1 p2 p3 r h1 h2 h3, ha, hb, hc]
  rfl

/-- Witness for claim C9 at concrete pieces with a discarded tail. -/
theorem claim_server_ignores_extra_witness :
    Ja3S.fromStr (chars "771" ++ (',' :: (chars "4865" ++ (',' ::
        (chars "0" ++ (',' :: chars "junk")))))) = some ⟨[771], [4865], [0]⟩ :=
  claim_server_ignores_extra.1 _ _ _ _ (by decide) (by decide) (by decide)
    [771] [4865] [0] (by decide) (by decide) (by decide)

/-- Claim C10 (implicit): non-canonical numeric tokens are accepted — a
token with leading zeros ("0771") or a leading plus sign ("+771") parses
to the same value as its canonical form, so there are accepted texts that
re-render differently: render(parse(t)) is "771,,,," for both, which
differs from either input text. -/
theorem claim_noncanonical_tokens :
    Ja3.fromStr (chars "0771,,,,") = some ⟨[771], [], [], [], []⟩ ∧
    Ja3.fromStr (chars "+771,,,,") = some ⟨[771], [], [], [], []⟩ ∧
    Ja3.render ⟨[771], [], [], [], []⟩ = chars "771,,,," ∧
    chars "771,,,," ≠ chars "0771,,,," ∧
    chars "771,,,," ≠ chars "+771,,,," := by decide

/-- Claim C4 counterexample: "+771" is a dash-separated token containing a
non-digit character ('+'), so under the claim parse("+771,,,,") should
fail; the code accepts it, yielding versions [771] — Rust's unsigned
`from_str` permits one leading '+'. -/
theorem claim_malformed_cex :
    Ja3.fromStr (chars "+771,,,,") = some ⟨[771], [], [], [], []⟩ ∧
    splitSep '-' (chars "+771") = [chars "+771"] ∧
    '+' ∈ chars "+771" ∧ Char.isDigit '+' = false := by decide

/-- Claim C4 amended: parse fails, returning the single opaque error with
no partial result, exactly when some non-empty field contains a
dash-separated token that is not an optional leading '+' followed by one
or more base-10 digits whose value fits the field's bit width; any other
non-digit character (including untrimmed whitespace), an empty token from
a doubled dash, or an out-of-range value therefore fails the whole parse,
and in particular parse("abc,,,,") on the client form fails. -/
theorem claim_malformed_iff :
    (∀ s : List Char, Ja3.fromStr s = none
      ↔ (fromStrField u16Bound ((splitn 5 ',' s).getD 0 []) = none
        ∨ fromStrField u16Bound ((splitn 5 ',' s).getD 1 []) = none
        ∨ fromStrField u16Bound ((splitn 5 ',' s).getD 2 []) = none
        ∨ fromStrField u16Bound ((splitn 5 ',' s).getD 3 []) = none
        ∨ fromStrField u8Bound ((splitn 5 ',' s).getD 4 []) = none)) ∧
    (∀ s : List Char, Ja3S.fromStr s = none
      ↔ (fromStrField u16Bound ((splitn 5 ',' s).getD 0 []) = none
        ∨ fromStrField u16Bound ((splitn 5 ',' s).getD 1 []) = none
        ∨ fromStrField u16Bound ((splitn 5 ',' s).getD 2 []) = none)) ∧
    (∀ (bound : Nat) (p : List Char), fromStrField bound p = none
      ↔ (p ≠ [] ∧ ∃ t ∈ splitSep '-' p, parseUnsigned bound t = none)) ∧
    (∀ (bound : Nat) (t : List Char), 0 < bound →
      (parseUnsigned bound t = none ↔ isGoodToken bound t = false)) ∧
    Ja3.fromStr (chars "abc,,,,") = none :=
  ⟨ja3_fromStr_none_iff, ja3s_fromStr_none_iff, fromStrField_none_iff,
   fun _ t hb => parseUnsigned_none_iff hb t, by decide⟩

/-- Witness for claim C4's token characterization at concrete tokens: an
out-of-range 8-bit token and a whitespace-padded token. -/
theorem claim_malformed_iff_witness :
    (parseUnsigned u8Bound (chars "256") = none
      ↔ isGoodToken u8Bound (chars "256") = false) ∧
    (parseUnsigned u16Bound (chars " 771") = none
      ↔ isGoodToken u16Bound (chars " 771") = false) :=
  ⟨claim_malformed_iff.2.2.2.1 u8Bound _ (by decide),
   claim_malformed_iff.2.2.2.1 u16Bound _ (by decide)⟩

/-- Claim C7: render formatting — each field's sequence renders as the
base-10 decimal literals of its elements joined by single dashes (empty
sequence as the empty string, singleton with no dash, never a leading or
trailing dash), and the fields are joined by commas in the fixed field
order. -/
theorem claim_render_format :
    (∀ xs : List Nat, renderField xs = List.intercalate ['-'] (xs.map natToDigits)) ∧
    (∀ n : Nat, (natToDigits n).all Char.isDigit = true
      ∧ digitsVal (natToDigits n) = n) ∧
    renderField [] = [] ∧
    (∀ x : Nat, renderField [x] = natToDigits x) ∧
    (∀ xs : List Nat, (renderField xs).head? ≠ some '-'
      ∧ (renderField xs).getLast? ≠ some '-') ∧
    (∀ j : Ja3, Ja3.render j = List.intercalate [',']
      [renderField j.ssl_versions, renderField j.ciphers,
       renderField j.ssl_extensions, renderField j.elliptic_curves,
       renderField j.elliptic_curve_point_formats]) ∧
    (∀ j : Ja3S, Ja3S.render j = List.intercalate [',']
      [renderField j.ssl_versions, renderField j.ciphers,
       renderField j.ssl_extensions]) := by
  refine ⟨renderField_eq_intercalate, ?_, rfl, fun x => rfl, ?_, ?_, ?_⟩
  · intro n
    exact ⟨natToDigits_all_isDigit n, digitsVal_natToDigits n⟩
  · intro xs
    by_cases h : xs = []
    · subst h
      constructor <;> simp [renderField]
    · obtain ⟨c, cs, e, hc⟩ := renderField_head xs h
      obtain ⟨a, d, e2, hd⟩ := renderField_last xs h
      constructor
      · rw [e]
        simp only [List.head?_cons, Ne, Option.some.injEq]
        intro h'
        exact isDigit_ne_dash hc h'
      · rw [e2, List.getLast?_concat]
        simp only [Ne, Option.some.injEq]
        intro h'
        exact isDigit_ne_dash hd h'
  · intro j
    simp [Ja3.render, List.intercalate, List.intersperse]
  · intro j
    simp [Ja3S.render, List.intercalate, List.intersperse]
